import Mathlib

/-!
Verification development for the COVID-19 global data tracker
(`src/data_tracker.py`).

The script operates on a pandas DataFrame.  We embed the part of the
frame the cleaning/derivation/insight pipeline touches as a list of
rows.  A row carries the location, the date (an integer count of days,
which is all the pipeline needs of calendar dates: ordering and a
30-day window), and the eight numeric columns used by the script.  A
pandas missing value (`NaN`) is modelled as `Option.none`; numbers are
rationals, so every arithmetic result the code produces is a defined
finite value unless the code itself would divide by zero.
-/

/-- The metric columns of the source frame that the pipeline reads or writes. -/
inductive Metric where
  | total_cases
  | new_cases
  | total_deaths
  | new_deaths
  | people_vaccinated
  | people_fully_vaccinated
  | population
  | total_deaths_per_million
deriving DecidableEq

/-- One row of the DataFrame: `location`, `date` and the metric columns.
`none` models a pandas `NaN`. -/
structure Row where
  location : String
  date : ℤ
  total_cases : Option ℚ
  new_cases : Option ℚ
  total_deaths : Option ℚ
  new_deaths : Option ℚ
  people_vaccinated : Option ℚ
  people_fully_vaccinated : Option ℚ
  population : Option ℚ
  total_deaths_per_million : Option ℚ
deriving DecidableEq

/-- Read a metric column of a row. -/
def getM (m : Metric) (r : Row) : Option ℚ :=
  match m with
  | .total_cases => r.total_cases
  | .new_cases => r.new_cases
  | .total_deaths => r.total_deaths
  | .new_deaths => r.new_deaths
  | .people_vaccinated => r.people_vaccinated
  | .people_fully_vaccinated => r.people_fully_vaccinated
  | .population => r.population
  | .total_deaths_per_million => r.total_deaths_per_million

/-- Write a metric column of a row. -/
def setM (m : Metric) (v : Option ℚ) (r : Row) : Row :=
  match m with
  | .total_cases => { r with total_cases := v }
  | .new_cases => { r with new_cases := v }
  | .total_deaths => { r with total_deaths := v }
  | .new_deaths => { r with new_deaths := v }
  | .people_vaccinated => { r with people_vaccinated := v }
  | .people_fully_vaccinated => { r with people_fully_vaccinated := v }
  | .population => { r with population := v }
  | .total_deaths_per_million => { r with total_deaths_per_million := v }

@[simp] theorem getM_setM_same (m : Metric) (v : Option ℚ) (r : Row) :
    getM m (setM m v r) = v := by
  cases m <;> rfl

theorem getM_setM_other (m n : Metric) (v : Option ℚ) (r : Row) (h : n ≠ m) :
    getM n (setM m v r) = getM n r := by
  cases m <;> cases n <;> first
    | rfl
    | exact absurd rfl h

@[simp] theorem location_setM (m : Metric) (v : Option ℚ) (r : Row) :
    (setM m v r).location = r.location := by
  cases m <;> rfl

@[simp] theorem date_setM (m : Metric) (v : Option ℚ) (r : Row) :
    (setM m v r).date = r.date := by
  cases m <;> rfl

/-- Two rows agreeing on location, date and every metric column are equal. -/
theorem Row.eq_of_fields (r s : Row) (hl : r.location = s.location)
    (hd : r.date = s.date) (hm : ∀ m, getM m r = getM m s) : r = s := by
  obtain ⟨l, d, a, b, c, e, f, g, h, i⟩ := r
  obtain ⟨l', d', a', b', c', e', f', g', h', i'⟩ := s
  have h1 := hm .total_cases
  have h2 := hm .new_cases
  have h3 := hm .total_deaths
  have h4 := hm .new_deaths
  have h5 := hm .people_vaccinated
  have h6 := hm .people_fully_vaccinated
  have h7 := hm .population
  have h8 := hm .total_deaths_per_million
  simp only [getM] at h1 h2 h3 h4 h5 h6 h7 h8
  simp_all

/-- `key_metrics` of `src/data_tracker.py` line 102: the columns the
cleaning step forward-fills. -/
def keyMetrics : List Metric :=
  [.total_cases, .new_cases, .total_deaths, .new_deaths,
   .people_vaccinated, .people_fully_vaccinated]

/-- `countries_of_interest` of `src/data_tracker.py` line 91. -/
def countriesOfInterest : List String :=
  ["United States", "India", "Brazil", "Kenya", "United Kingdom", "Germany"]

/-- `df_countries = df[df['location'].isin(countries_of_interest)]`
(line 92): keep only the configured locations, preserving row order. -/
def filterCountries (df : List Row) : List Row :=
  df.filter (fun r => decide (r.location ∈ countriesOfInterest))

/-! ## Gap filler

`df_countries[metric] = df_countries.groupby('location')[metric].transform(lambda x: x.ffill())`
(line 106).  `groupby.transform(ffill)` forward-fills each metric inside
each location group, in the frame's row order, and writes the resulting
column back aligned with the original index.  We model one column as the
list of `(location, value)` pairs and thread the per-location "last seen
value" as an association list (later entries shadow earlier ones). -/

/-- Last value recorded for `loc` in the carry (first match wins; the
carry is extended at the front). -/
def lookupC (loc : String) : List (String × ℚ) → Option ℚ
  | [] => none
  | p :: c => if p.1 = loc then some p.2 else lookupC loc c

/-- Forward-fill one column, per location, in row order: a present value
is kept and becomes the location's last-seen value; a missing value is
replaced by the location's last-seen value, if any. -/
def colFfill (c : List (String × ℚ)) : List (String × Option ℚ) → List (String × Option ℚ)
  | [] => []
  | (l, some x) :: rest => (l, some x) :: colFfill ((l, x) :: c) rest
  | (l, none) :: rest => (l, lookupC l c) :: colFfill c rest

/-- Extract one metric column together with the per-row locations. -/
def colOf (m : Metric) (df : List Row) : List (String × Option ℚ) :=
  df.map (fun r => (r.location, getM m r))

/-- Write the forward-filled metric column back into the frame
(the pandas column assignment, index-aligned). -/
def fillColumn (m : Metric) (df : List Row) : List Row :=
  List.zipWith (fun r p => setM m p.2 r) df (colFfill [] (colOf m df))

/-- The cleaning loop of lines 104-106: fill every key metric in turn. -/
def fillDF (df : List Row) : List Row :=
  keyMetrics.foldl (fun d m => fillColumn m d) df

example :
    colFfill [] [(String.mk ['A'], some 1), (String.mk ['A'], none), (String.mk ['B'], none)] =
      [(String.mk ['A'], some 1), (String.mk ['A'], some 1), (String.mk ['B'], none)] := by
  decide

/-! ### Column-level facts about the forward fill -/

@[simp] theorem colFfill_length (c : List (String × ℚ)) (xs : List (String × Option ℚ)) :
    (colFfill c xs).length = xs.length := by
  induction xs generalizing c with
  | nil => rfl
  | cons p rest ih =>
    obtain ⟨l, v⟩ := p
    cases v <;> simp [colFfill, ih]

theorem colFfill_fst (c : List (String × ℚ)) (xs : List (String × Option ℚ)) :
    (colFfill c xs).map Prod.fst = xs.map Prod.fst := by
  induction xs generalizing c with
  | nil => rfl
  | cons p rest ih =>
    obtain ⟨l, v⟩ := p
    cases v <;> simp [colFfill, ih]

@[simp] theorem lookupC_cons (l l' : String) (x : ℚ) (c : List (String × ℚ)) :
    lookupC l' ((l, x) :: c) = if l = l' then some x else lookupC l' c := rfl

/-- The fill reads its carry only through `lookupC`. -/
theorem colFfill_congr (c c' : List (String × ℚ)) (xs : List (String × Option ℚ))
    (h : ∀ l, lookupC l c' = lookupC l c) : colFfill c' xs = colFfill c xs := by
  induction xs generalizing c c' with
  | nil => rfl
  | cons p rest ih =>
    obtain ⟨l, v⟩ := p
    cases v with
    | none => simp [colFfill, h l, ih c c' h]
    | some x =>
      simp only [colFfill, List.cons.injEq, true_and]
      refine ih ((l, x) :: c) ((l, x) :: c') ?_
      intro l'
      by_cases hl : l = l' <;> simp [hl, h l']

/-- Re-running the column fill on its own output changes nothing,
for any carry that answers lookups like the original one. -/
theorem colFfill_idem (c c' : List (String × ℚ)) (xs : List (String × Option ℚ))
    (h : ∀ l, lookupC l c' = lookupC l c) :
    colFfill c' (colFfill c xs) = colFfill c xs := by
  induction xs generalizing c c' with
  | nil => rfl
  | cons p rest ih =>
    obtain ⟨l, v⟩ := p
    cases v with
    | some x =>
      simp only [colFfill, List.cons.injEq, true_and]
      refine ih ((l, x) :: c) ((l, x) :: c') ?_
      intro l'
      by_cases hl : l = l' <;> simp [hl, h l']
    | none =>
      rcases hw : lookupC l c with _ | x
      · simp only [colFfill, hw, h l, List.cons.injEq, true_and]
        exact ih c c' h
      · simp only [colFfill, hw, List.cons.injEq, true_and]
        refine ih c ((l, x) :: c') ?_
        intro l'
        by_cases hl : l = l'
        · subst hl; simp [h l, hw]
        · simp [hl, h l']

/-- Last non-missing value of a column fragment (later entries win). -/
def lastSome : List (Option ℚ) → Option ℚ
  | [] => none
  | v :: rest => (lastSome rest).orElse (fun _ => v)

@[simp] theorem lastSome_nil : lastSome [] = none := rfl

@[simp] theorem lastSome_cons (v : Option ℚ) (rest : List (Option ℚ)) :
    lastSome (v :: rest) = (lastSome rest).orElse (fun _ => v) := rfl

@[simp] theorem someQ_orElse (x : ℚ) (f : Unit → Option ℚ) :
    Option.orElse (some x) f = some x := rfl

@[simp] theorem noneQ_orElse (f : Unit → Option ℚ) :
    Option.orElse none f = f () := rfl

theorem orElseQ_assoc (a : Option ℚ) (f g : Unit → Option ℚ) :
    (a.orElse f).orElse g = a.orElse (fun _ => (f ()).orElse g) := by
  cases a <;> rfl

/-- Pointwise description of the column fill: position `i` holds the last
non-missing value among the entries of the same location up to and
including position `i`, falling back to the carry. -/
theorem colFfill_getElem (xs : List (String × Option ℚ)) (c : List (String × ℚ))
    (i : ℕ) (hi : i < xs.length) :
    (colFfill c xs)[i]? =
      some (xs[i].1,
        (lastSome (((xs.take (i+1)).filter (fun p => decide (p.1 = xs[i].1))).map Prod.snd)).orElse
          (fun _ => lookupC xs[i].1 c)) := by
  induction xs generalizing c i with
  | nil => exact absurd hi (by simp)
  | cons p rest ih =>
    obtain ⟨l, v⟩ := p
    cases i with
    | zero =>
      cases v with
      | none => simp [colFfill, List.filter_cons]
      | some x => simp [colFfill, List.filter_cons]
    | succ i =>
      have hi' : i < rest.length := by simpa using hi
      have key : ∀ c'' : List (String × ℚ),
          (colFfill c'' rest)[i]? =
            some (rest[i].1,
              (lastSome (((rest.take (i+1)).filter
                  (fun p => decide (p.1 = rest[i].1))).map Prod.snd)).orElse
                (fun _ => lookupC rest[i].1 c'')) := fun c'' => ih c'' i hi'
      have hstep : ∀ (w : Option ℚ) (c'' : List (String × ℚ)),
          colFfill c'' ((l, w) :: rest) =
            (l, w.orElse (fun _ => lookupC l c'')) ::
              colFfill (w.elim c'' (fun x => (l, x) :: c'')) rest := by
        intro w c''
        cases w <;> rfl
      rw [hstep, List.getElem?_cons_succ, key, List.getElem_cons_succ,
        List.take_succ_cons, List.filter_cons]
      by_cases hl : l = rest[i].1
      · rw [if_pos (by simpa using hl)]
        rw [List.map_cons, lastSome_cons]
        cases v with
        | some x => simp [hl, orElseQ_assoc]
        | none => simp [hl, orElseQ_assoc]
      · rw [if_neg (by simpa using hl)]
        cases v with
        | some x => simp [hl]
        | none => simp [hl]

/-- `colFfill_getElem` with total indexing. -/
theorem colFfill_getElem_eq (xs : List (String × Option ℚ)) (c : List (String × ℚ))
    (i : ℕ) (hi : i < xs.length) (h2 : i < (colFfill c xs).length) :
    (colFfill c xs)[i] =
      (xs[i].1,
        (lastSome (((xs.take (i+1)).filter (fun p => decide (p.1 = xs[i].1))).map Prod.snd)).orElse
          (fun _ => lookupC xs[i].1 c)) := by
  have h := colFfill_getElem xs c i hi
  rwa [List.getElem?_eq_getElem (by simpa using hi), Option.some_inj] at h

/-! ### Lifting the column fill to the frame -/

@[simp] theorem colOf_length (m : Metric) (df : List Row) :
    (colOf m df).length = df.length := by
  simp [colOf]

theorem colOf_getElem (m : Metric) (df : List Row) (i : ℕ) (hi : i < df.length)
    (h2 : i < (colOf m df).length) :
    (colOf m df)[i] = ((df[i]).location, getM m (df[i])) := by
  simp [colOf]

@[simp] theorem fillColumn_length (m : Metric) (df : List Row) :
    (fillColumn m df).length = df.length := by
  simp [fillColumn]

theorem fillColumn_getElem (m : Metric) (df : List Row) (i : ℕ) (hi : i < df.length)
    (h2 : i < (fillColumn m df).length) (h3 : i < (colFfill [] (colOf m df)).length) :
    (fillColumn m df)[i] =
      setM m (((colFfill [] (colOf m df))[i]).2) (df[i]) := by
  simp [fillColumn, List.getElem_zipWith]

theorem fillColumn_location (m : Metric) (df : List Row) (i : ℕ) (hi : i < df.length)
    (h2 : i < (fillColumn m df).length) :
    ((fillColumn m df)[i]).location = (df[i]).location := by
  rw [fillColumn_getElem m df i hi h2 (by simpa using hi)]
  simp

theorem fillColumn_date (m : Metric) (df : List Row) (i : ℕ) (hi : i < df.length)
    (h2 : i < (fillColumn m df).length) :
    ((fillColumn m df)[i]).date = (df[i]).date := by
  rw [fillColumn_getElem m df i hi h2 (by simpa using hi)]
  simp

theorem colOf_fillColumn_other (n m : Metric) (df : List Row) (h : n ≠ m) :
    colOf n (fillColumn m df) = colOf n df := by
  apply List.ext_getElem (by simp)
  intro i h1 h2
  have hi : i < df.length := by simpa using h2
  rw [colOf_getElem n _ i (by simpa using h1) h1, colOf_getElem n df i hi h2,
    fillColumn_getElem m df i hi (by simpa using hi) (by simpa using hi)]
  simp [getM_setM_other _ _ _ _ h]

theorem colOf_fillColumn_self (m : Metric) (df : List Row) :
    colOf m (fillColumn m df) = colFfill [] (colOf m df) := by
  apply List.ext_getElem (by simp)
  intro i h1 h2
  have hi : i < df.length := by simpa using h1
  rw [colOf_getElem m _ i (by simpa using h1) h1,
    fillColumn_getElem m df i hi (by simpa using hi) (by simpa using hi),
    colFfill_getElem_eq (colOf m df) [] i (by simpa using hi) (by simpa using hi)]
  simp [colOf_getElem m df i hi (by simpa using hi)]

/-- The cleaning loop over an arbitrary list of metrics. -/
def foldFill (ms : List Metric) (df : List Row) : List Row :=
  ms.foldl (fun d m => fillColumn m d) df

theorem fillDF_eq_foldFill (df : List Row) : fillDF df = foldFill keyMetrics df := rfl

@[simp] theorem foldFill_nil (df : List Row) : foldFill [] df = df := rfl

@[simp] theorem foldFill_cons (m : Metric) (ms : List Metric) (df : List Row) :
    foldFill (m :: ms) df = foldFill ms (fillColumn m df) := rfl

@[simp] theorem foldFill_length (ms : List Metric) (df : List Row) :
    (foldFill ms df).length = df.length := by
  induction ms generalizing df with
  | nil => rfl
  | cons m ms ih => simp [ih]

theorem foldFill_location (ms : List Metric) (df : List Row) (i : ℕ) (hi : i < df.length)
    (h2 : i < (foldFill ms df).length) :
    ((foldFill ms df)[i]).location = (df[i]).location := by
  induction ms generalizing df with
  | nil => rfl
  | cons m ms ih =>
    exact (ih (fillColumn m df) (by simpa using hi) (by simpa using hi)).trans
      (fillColumn_location m df i hi (by simpa using hi))

theorem foldFill_date (ms : List Metric) (df : List Row) (i : ℕ) (hi : i < df.length)
    (h2 : i < (foldFill ms df).length) :
    ((foldFill ms df)[i]).date = (df[i]).date := by
  induction ms generalizing df with
  | nil => rfl
  | cons m ms ih =>
    exact (ih (fillColumn m df) (by simpa using hi) (by simpa using hi)).trans
      (fillColumn_date m df i hi (by simpa using hi))

theorem colOf_foldFill_not_mem (ms : List Metric) (df : List Row) (m : Metric)
    (h : m ∉ ms) : colOf m (foldFill ms df) = colOf m df := by
  induction ms generalizing df with
  | nil => rfl
  | cons n ms ih =>
    rw [foldFill_cons, ih (fillColumn n df) (fun hmem => h (List.mem_cons_of_mem n hmem)),
      colOf_fillColumn_other m n df (fun he => h (he ▸ List.mem_cons_self n ms))]

theorem colOf_foldFill_mem (ms : List Metric) (df : List Row) (m : Metric)
    (hnd : ms.Nodup) (h : m ∈ ms) :
    colOf m (foldFill ms df) = colFfill [] (colOf m df) := by
  induction ms generalizing df with
  | nil => exact absurd h (by simp)
  | cons n ms ih =>
    rw [foldFill_cons]
    rcases List.mem_cons.mp h with he | hmem
    · subst he
      rw [colOf_foldFill_not_mem ms (fillColumn m df) m (List.Nodup.not_mem hnd),
        colOf_fillColumn_self m df]
    · have hne : m ≠ n := fun he => (List.Nodup.not_mem hnd) (he ▸ hmem)
      rw [ih (fillColumn n df) (List.Nodup.of_cons hnd) hmem,
        colOf_fillColumn_other m n df hne]

@[simp] theorem fillDF_length (df : List Row) : (fillDF df).length = df.length := by
  rw [fillDF_eq_foldFill]
  simp

theorem keyMetrics_nodup : keyMetrics.Nodup := by decide

theorem colOf_fillDF (m : Metric) (df : List Row) (h : m ∈ keyMetrics) :
    colOf m (fillDF df) = colFfill [] (colOf m df) := by
  rw [fillDF_eq_foldFill]
  exact colOf_foldFill_mem keyMetrics df m keyMetrics_nodup h

theorem colOf_fillDF_other (m : Metric) (df : List Row) (h : m ∉ keyMetrics) :
    colOf m (fillDF df) = colOf m df := by
  rw [fillDF_eq_foldFill]
  exact colOf_foldFill_not_mem keyMetrics df m h

theorem fillDF_location (df : List Row) (i : ℕ) (hi : i < df.length)
    (h2 : i < (fillDF df).length) :
    ((fillDF df)[i]).location = (df[i]).location :=
  foldFill_location keyMetrics df i hi h2

theorem fillDF_date (df : List Row) (i : ℕ) (hi : i < df.length)
    (h2 : i < (fillDF df).length) :
    ((fillDF df)[i]).date = (df[i]).date :=
  foldFill_date keyMetrics df i hi h2

theorem getM_eq_of_colOf_eq (df₁ df₂ : List Row) (m : Metric)
    (h : colOf m df₁ = colOf m df₂) (i : ℕ) (h₁ : i < df₁.length) (h₂ : i < df₂.length) :
    getM m (df₁[i]) = getM m (df₂[i]) := by
  have hc := congrArg (fun l => l[i]?) h
  simp only [colOf, List.getElem?_map, List.getElem?_eq_getElem h₁,
    List.getElem?_eq_getElem h₂, Option.map_some'] at hc
  exact congrArg Prod.snd (Option.some_inj.mp hc)

/-! ## Claim C6: idempotence of the gap filler -/

/-- C6: applying the per-location forward fill a second time to an
already-filled frame yields a frame identical to its input, for every
input dataset; this covers every key metric at once (the remaining
columns are never touched by the fill). -/
theorem fillDF_idem (df : List Row) : fillDF (fillDF df) = fillDF df := by
  apply List.ext_getElem (by simp)
  intro i h1 h2
  have hdf : i < df.length := by simpa using h2
  have hfd : i < (fillDF df).length := by simpa using hdf
  apply Row.eq_of_fields
  · exact fillDF_location (fillDF df) i hfd h1
  · exact fillDF_date (fillDF df) i hfd h1
  · intro m
    by_cases hm : m ∈ keyMetrics
    · have hcol : colOf m (fillDF (fillDF df)) = colOf m (fillDF df) := by
        rw [colOf_fillDF m (fillDF df) hm, colOf_fillDF m df hm]
        exact colFfill_idem [] [] (colOf m df) (fun l => rfl)
      exact getM_eq_of_colOf_eq _ _ m hcol i h1 h2
    · exact getM_eq_of_colOf_eq _ _ m (colOf_fillDF_other m (fillDF df) hm) i h1 h2

/-! ## Snapshot extractor

`_LATEST_DF = df_countries.loc[df_countries.groupby('location')['date'].idxmax()]`
(line 115).  `groupby` enumerates the distinct locations in sorted key
order; each group keeps the frame's row order; `idxmax` returns the
index of the first row attaining the maximum date inside the group; and
`.loc[...]` collects those rows, one per location. -/

/-- First row of a list attaining the maximum date: a later row wins
only with a strictly greater date (pandas `idxmax` keeps the first
occurrence of the maximum). -/
def firstMax : List Row → Option Row
  | [] => none
  | r :: rest =>
    match firstMax rest with
    | none => some r
    | some s => if r.date < s.date then some s else some r

/-- Lexicographic comparison of character lists (by code point), the
order pandas sorts group keys in.  (`String` has `<` in Lean, but its
`String.ltb` does not reduce in the kernel, so we compare the
underlying characters directly.) -/
def charListLt : List Char → List Char → Bool
  | [], [] => false
  | [], _ :: _ => true
  | _ :: _, [] => false
  | a :: as, b :: bs =>
    if a.toNat < b.toNat then true
    else if b.toNat < a.toNat then false
    else charListLt as bs

def locLt (a b : String) : Bool := charListLt a.data b.data

/-- Insertion into a sorted list of strings. -/
def insertSorted (s : String) : List String → List String
  | [] => [s]
  | t :: ts => if locLt s t then s :: t :: ts else t :: insertSorted s ts

/-- Insertion sort on strings, modelling the sorted group keys of
pandas `groupby`. -/
def sortLocs (ls : List String) : List String := ls.foldr insertSorted []

/-- The distinct locations of a frame, in `groupby` key order. -/
def groupKeys (df : List Row) : List String :=
  sortLocs ((df.map (fun r => r.location)).dedup)

/-- `_LATEST_DF`: one row per location present in the frame, the first
row attaining that location's maximum date. -/
def snapshot (df : List Row) : List Row :=
  (groupKeys df).filterMap
    (fun l => firstMax (df.filter (fun r => decide (r.location = l))))

@[simp] theorem mem_insertSorted (a s : String) (ts : List String) :
    a ∈ insertSorted s ts ↔ a = s ∨ a ∈ ts := by
  induction ts with
  | nil => simp [insertSorted]
  | cons t ts ih =>
    by_cases h : locLt s t = true
    · simp [insertSorted, h]
    · simp [insertSorted, h, ih]
      tauto

theorem insertSorted_nodup (s : String) (ts : List String) (hnd : ts.Nodup)
    (hs : s ∉ ts) : (insertSorted s ts).Nodup := by
  induction ts with
  | nil => simp [insertSorted]
  | cons t ts ih =>
    by_cases h : locLt s t = true
    · rw [insertSorted, if_pos h]
      refine List.nodup_cons.mpr ⟨hs, hnd⟩
    · rw [insertSorted, if_neg h]
      refine List.nodup_cons.mpr ⟨?_, ?_⟩
      · intro hmem
        rcases (mem_insertSorted t s ts).mp hmem with he | hmem'
        · exact hs (he ▸ List.mem_cons_self t ts)
        · exact (List.nodup_cons.mp hnd).1 hmem'
      · exact ih (List.nodup_cons.mp hnd).2 (fun hmem => hs (List.mem_cons_of_mem t hmem))

@[simp] theorem mem_sortLocs (a : String) (ls : List String) :
    a ∈ sortLocs ls ↔ a ∈ ls := by
  induction ls with
  | nil => simp [sortLocs]
  | cons t ts ih =>
    show a ∈ insertSorted t (sortLocs ts) ↔ _
    simp [ih]

theorem sortLocs_nodup (ls : List String) (hnd : ls.Nodup) : (sortLocs ls).Nodup := by
  induction ls with
  | nil => simp [sortLocs]
  | cons t ts ih =>
    show (insertSorted t (sortLocs ts)).Nodup
    refine insertSorted_nodup t (sortLocs ts) (ih (List.nodup_cons.mp hnd).2) ?_
    rw [mem_sortLocs]
    exact (List.nodup_cons.mp hnd).1

theorem groupKeys_nodup (df : List Row) : (groupKeys df).Nodup :=
  sortLocs_nodup _ (List.nodup_dedup _)

@[simp] theorem mem_groupKeys (df : List Row) (l : String) :
    l ∈ groupKeys df ↔ l ∈ df.map (fun r => r.location) := by
  simp [groupKeys]

theorem firstMax_isSome (xs : List Row) (h : xs ≠ []) : (firstMax xs).isSome := by
  cases xs with
  | nil => exact absurd rfl h
  | cons r rest =>
    rw [firstMax]
    cases firstMax rest with
    | none => rfl
    | some s =>
      by_cases hd : r.date < s.date <;> simp [hd]

theorem firstMax_mem (xs : List Row) (r : Row) (h : firstMax xs = some r) : r ∈ xs := by
  induction xs with
  | nil => exact absurd h (by simp [firstMax])
  | cons x rest ih =>
    rcases hm : firstMax rest with _ | s
    · simp only [firstMax, hm] at h
      exact (Option.some_inj.mp h) ▸ List.mem_cons_self x rest
    · simp only [firstMax, hm] at h
      by_cases hd : x.date < s.date
      · rw [if_pos hd] at h
        exact List.mem_cons_of_mem x (ih ((Option.some_inj.mp h) ▸ hm))
      · rw [if_neg hd] at h
        exact (Option.some_inj.mp h) ▸ List.mem_cons_self x rest

theorem firstMax_max (xs : List Row) (r : Row) (h : firstMax xs = some r) :
    ∀ x ∈ xs, x.date ≤ r.date := by
  induction xs generalizing r with
  | nil => exact absurd h (by simp [firstMax])
  | cons x rest ih =>
    rcases hm : firstMax rest with _ | s
    · simp only [firstMax, hm] at h
      obtain rfl : x = r := Option.some_inj.mp h
      intro y hy
      rcases List.mem_cons.mp hy with he | hmem
      · exact le_of_eq (congrArg Row.date he)
      · cases rest with
        | nil => exact absurd hmem (by simp)
        | cons z zs => exact absurd hm (by
            have := firstMax_isSome (z :: zs) (by simp)
            intro hc
            rw [hc] at this
            exact Bool.noConfusion this)
    · simp only [firstMax, hm] at h
      by_cases hd : x.date < s.date
      · rw [if_pos hd] at h
        obtain rfl : s = r := Option.some_inj.mp h
        intro y hy
        rcases List.mem_cons.mp hy with he | hmem
        · exact le_of_lt (he ▸ hd)
        · exact ih s hm y hmem
      · rw [if_neg hd] at h
        obtain rfl : x = r := Option.some_inj.mp h
        intro y hy
        rcases List.mem_cons.mp hy with he | hmem
        · exact le_of_eq (congrArg Row.date he)
        · exact le_trans (ih s hm y hmem) (le_of_not_lt hd)

/-- The winner of `firstMax` sits at a position all of whose
predecessors have strictly smaller dates: first occurrence wins. -/
theorem firstMax_first (xs : List Row) (r : Row) (h : firstMax xs = some r) :
    ∃ i, ∃ hi : i < xs.length, xs[i] = r ∧
      ∀ j, ∀ hj : j < xs.length, j < i → (xs[j]).date < r.date := by
  induction xs generalizing r with
  | nil => exact absurd h (by simp [firstMax])
  | cons x rest ih =>
    rcases hm : firstMax rest with _ | s
    · simp only [firstMax, hm] at h
      obtain rfl : x = r := Option.some_inj.mp h
      exact ⟨0, by simp, rfl, fun j hj hji => absurd hji (by omega)⟩
    · simp only [firstMax, hm] at h
      by_cases hd : x.date < s.date
      · rw [if_pos hd] at h
        obtain rfl : s = r := Option.some_inj.mp h
        obtain ⟨i, hi, heq, hfirst⟩ := ih s hm
        refine ⟨i + 1, by simpa using hi, by simpa using heq, ?_⟩
        intro j hj hji
        cases j with
        | zero => simpa using hd
        | succ j =>
          have hj' : j < rest.length := by simpa using hj
          simpa using hfirst j hj' (by omega)
      · rw [if_neg hd] at h
        obtain rfl : x = r := Option.some_inj.mp h
        exact ⟨0, by simp, rfl, fun j hj hji => absurd hji (by omega)⟩

/-- Filtering the rows produced by a keyed `filterMap` down to one
location: with distinct keys and each produced row tagged with its key,
the result is the one row produced for that key, when any. -/
theorem filter_filterMap_keys (g : String → Option Row)
    (hg : ∀ l r, g l = some r → r.location = l) (loc : String) :
    ∀ ks : List String, ks.Nodup →
      (ks.filterMap g).filter (fun r => decide (r.location = loc)) =
        if loc ∈ ks then (g loc).toList else [] := by
  intro ks
  induction ks with
  | nil => intro _; simp
  | cons k ks ih =>
    intro hk
    have hknd : ks.Nodup := (List.nodup_cons.mp hk).2
    have hkmem : k ∉ ks := (List.nodup_cons.mp hk).1
    rcases hgk : g k with _ | r
    · simp only [List.filterMap_cons, hgk]
      rw [ih hknd]
      by_cases hlk : loc = k
      · subst hlk
        rw [if_neg hkmem, if_pos (List.mem_cons_self loc ks), hgk]
        rfl
      · by_cases hmem : loc ∈ ks
        · rw [if_pos hmem, if_pos (List.mem_cons_of_mem k hmem)]
        · rw [if_neg hmem, if_neg (by
            intro hc
            rcases List.mem_cons.mp hc with he | hm2
            · exact hlk he
            · exact hmem hm2)]
    · simp only [List.filterMap_cons, hgk]
      have hrloc : r.location = k := hg k r hgk
      rw [List.filter_cons]
      by_cases hlk : k = loc
      · subst hlk
        rw [if_pos (by simp [hrloc])]
        rw [ih hknd, if_neg hkmem]
        simp [hgk]
      · rw [if_neg (by simpa [hrloc] using hlk)]
        rw [ih hknd]
        by_cases hmem : loc ∈ ks
        · rw [if_pos hmem, if_pos (List.mem_cons_of_mem k hmem)]
        · rw [if_neg hmem, if_neg (by
            intro hc
            rcases List.mem_cons.mp hc with he | hm2
            · exact hlk he.symm
            · exact hmem hm2)]

theorem snapshot_group (df : List Row) (l : String) (r : Row)
    (h : firstMax (df.filter (fun x => decide (x.location = l))) = some r) :
    r.location = l := by
  have hmem := firstMax_mem _ r h
  have := List.mem_filter.mp hmem
  simpa using this.2

/-- The snapshot rows carrying a given location: the one row `idxmax`
picked for that group, when the location occurs at all. -/
theorem snapshot_filter (df : List Row) (loc : String) :
    (snapshot df).filter (fun r => decide (r.location = loc)) =
      if loc ∈ groupKeys df
      then (firstMax (df.filter (fun r => decide (r.location = loc)))).toList
      else [] :=
  filter_filterMap_keys _ (fun l r h => snapshot_group df l r h) loc
    (groupKeys df) (groupKeys_nodup df)

/-! ## Claim C3: snapshot correctness -/

/-- C3: for every location present in the (filled) per-country frame the
snapshot holds exactly one row for it, a row of that location's records
whose date is the maximum date among them; a location with no records
has no snapshot entry. -/
theorem snapshot_correct (df : List Row) (loc : String) :
    (loc ∈ df.map (fun r => r.location) →
      ∃ r, (snapshot df).filter (fun x => decide (x.location = loc)) = [r] ∧
        r ∈ df.filter (fun x => decide (x.location = loc)) ∧
        ∀ x ∈ df.filter (fun x => decide (x.location = loc)), x.date ≤ r.date) ∧
    (loc ∉ df.map (fun r => r.location) →
      (snapshot df).filter (fun x => decide (x.location = loc)) = []) := by
  constructor
  · intro hmem
    have hkey : loc ∈ groupKeys df := (mem_groupKeys df loc).mpr hmem
    have hne : df.filter (fun x => decide (x.location = loc)) ≠ [] := by
      rcases List.mem_map.mp hmem with ⟨r, hr, hrl⟩
      intro hnil
      have hrf : r ∈ df.filter (fun x => decide (x.location = loc)) :=
        List.mem_filter.mpr ⟨hr, by simp [hrl]⟩
      rw [hnil] at hrf
      exact absurd hrf (by simp)
    obtain ⟨r, hr⟩ := Option.isSome_iff_exists.mp (firstMax_isSome _ hne)
    refine ⟨r, ?_, firstMax_mem _ r hr, firstMax_max _ r hr⟩
    rw [snapshot_filter df loc, if_pos hkey, hr]
    rfl
  · intro hmem
    rw [snapshot_filter df loc,
      if_neg (fun hc => hmem ((mem_groupKeys df loc).mp hc))]

/-- A location name used by the concrete witnesses. -/
def locA : String := "A"

/-- A second location name used by the concrete witnesses. -/
def locB : String := "B"

/-- Witness rows: location A at dates 1 and 2; `total_cases` is missing
at date 2 and must be forward-filled from date 1. -/
def rowA1 : Row := ⟨locA, 1, some 100, some 10, some 5, none, none, none, some 50, none⟩

def rowA2 : Row := ⟨locA, 2, none, some 20, none, none, none, none, some 50, none⟩

def exDf : List Row := [rowA1, rowA2]

theorem snapshot_correct_witness :
    ∃ r, (snapshot exDf).filter (fun x => decide (x.location = locA)) = [r] ∧
      r ∈ exDf.filter (fun x => decide (x.location = locA)) ∧
      ∀ x ∈ exDf.filter (fun x => decide (x.location = locA)), x.date ≤ r.date :=
  (snapshot_correct exDf locA).1 (by decide)

/-! ## Claim C8: the snapshot tie-break -/

/-- Tied rows: same location, same (maximal) date, different values. -/
def rowT1 : Row := ⟨locA, 5, some 10, none, none, none, none, none, none, none⟩

def rowT2 : Row := ⟨locA, 5, some 20, none, none, none, none, none, none, none⟩

def tieDf : List Row := [rowT1, rowT2]

/-- C8 counterexample: with two distinct rows of the same location
sharing the maximum date, the snapshot keeps the FIRST occurrence in
input order, not the last: `groupby('location')['date'].idxmax()`
returns the first index attaining the maximum. -/
theorem snapshot_tie_cex :
    snapshot tieDf = [rowT1] ∧ rowT1 ≠ rowT2 ∧ rowT1.date = rowT2.date := by
  decide

/-- C8 amended: when a location has several records at its maximum
date, the snapshot row is the first such occurrence in input order (all
earlier records of the location have strictly smaller dates). -/
theorem snapshot_first_occurrence (df : List Row) (loc : String) (r : Row)
    (h : (snapshot df).filter (fun x => decide (x.location = loc)) = [r]) :
    ∃ i, ∃ hi : i < (df.filter (fun x => decide (x.location = loc))).length,
      (df.filter (fun x => decide (x.location = loc)))[i] = r ∧
      (∀ x ∈ df.filter (fun x => decide (x.location = loc)), x.date ≤ r.date) ∧
      ∀ j, ∀ hj : j < (df.filter (fun x => decide (x.location = loc))).length,
        j < i → ((df.filter (fun x => decide (x.location = loc)))[j]).date < r.date := by
  rw [snapshot_filter df loc] at h
  by_cases hkey : loc ∈ groupKeys df
  · rw [if_pos hkey] at h
    have hfm : firstMax (df.filter (fun x => decide (x.location = loc))) = some r := by
      rcases hm : firstMax (df.filter (fun x => decide (x.location = loc))) with _ | s
      · rw [hm] at h
        exact absurd h (by simp)
      · rw [hm] at h
        simp only [Option.toList_some, List.cons.injEq, and_true] at h
        exact congrArg some h
    obtain ⟨i, hi, heq, hfirst⟩ := firstMax_first _ r hfm
    exact ⟨i, hi, heq, firstMax_max _ r hfm, hfirst⟩
  · rw [if_neg hkey] at h
    exact absurd h (by simp)

theorem snapshot_first_occurrence_witness :
    ∃ i, ∃ hi : i < (tieDf.filter (fun x => decide (x.location = locA))).length,
      (tieDf.filter (fun x => decide (x.location = locA)))[i] = rowT1 ∧
      (∀ x ∈ tieDf.filter (fun x => decide (x.location = locA)), x.date ≤ rowT1.date) ∧
      ∀ j, ∀ hj : j < (tieDf.filter (fun x => decide (x.location = locA))).length,
        j < i → ((tieDf.filter (fun x => decide (x.location = locA)))[j]).date < rowT1.date :=
  snapshot_first_occurrence tieDf locA rowT1 (by decide)

/-! ## Claim C2: forward-fill causality -/

@[simp] theorem orElseQ_none (a : Option ℚ) : a.orElse (fun _ => none) = a := by
  cases a <;> rfl

/-- The most recent non-missing raw value of metric `m` in location
`loc` at a date at most `t`: the last such value in row order.  Under
`sortedWithin`, row order and date order agree inside a location, so
this is the value at the greatest qualifying date. -/
def recentRaw (m : Metric) (loc : String) (t : ℤ) (df : List Row) : Option ℚ :=
  lastSome ((df.filter (fun x => decide (x.location = loc ∧ x.date ≤ t))).map (getM m))

/-- The spec's input assumption (section 3, Series): inside each
location, dates are strictly increasing along the frame's row order. -/
def sortedWithin (df : List Row) : Prop :=
  List.Pairwise (fun a b => a.location = b.location → a.date < b.date) df

instance (df : List Row) : Decidable (sortedWithin df) :=
  inferInstanceAs
    (Decidable (List.Pairwise (fun a b : Row => a.location = b.location → a.date < b.date) df))

/-- Transporting a `getElem` along an equality of lists. -/
theorem getElem_eq_of_list_eq {α : Type} (l₁ l₂ : List α) (h : l₁ = l₂) (i : ℕ)
    (h₁ : i < l₁.length) (h₂ : i < l₂.length) : l₁[i] = l₂[i] := by
  subst h
  rfl

/-- Under per-location sortedness, the rows of `df[i]`'s location at a
date at most `df[i].date` are exactly that location's rows among the
first `i+1` rows of the frame. -/
theorem filter_upto_eq (df : List Row) (hs : sortedWithin df) (i : ℕ) (hi : i < df.length)
    (loc : String) (t : ℤ) (hloc : (df[i]).location = loc) (ht : (df[i]).date = t) :
    df.filter (fun x => decide (x.location = loc ∧ x.date ≤ t)) =
      (df.take (i+1)).filter (fun x => decide (x.location = loc)) := by
  conv_lhs => rw [← List.take_append_drop (i+1) df]
  rw [List.filter_append]
  have hdrop : (df.drop (i+1)).filter
      (fun x => decide (x.location = loc ∧ x.date ≤ t)) = [] := by
    rw [List.filter_eq_nil_iff]
    intro a ha
    obtain ⟨k, hk, hak⟩ := List.mem_iff_getElem.mp ha
    have hklen : i + 1 + k < df.length := by
      have hk2 := hk
      simp only [List.length_drop] at hk2
      omega
    have hak' : a = df[i+1+k] := by
      rw [← hak]
      exact List.getElem_drop ..
    have hp := (List.pairwise_iff_getElem.mp hs) i (i+1+k) hi hklen (by omega)
    simp only [decide_eq_true_eq, not_and, not_le]
    intro hl
    have hl2 : (df[i]).location = (df[i+1+k]).location := by
      rw [hloc, ← hak']
      exact hl.symm
    rw [hak', ← ht]
    exact hp hl2
  rw [hdrop, List.append_nil]
  apply List.filter_congr
  intro x hx
  obtain ⟨j, hj, hxj⟩ := List.mem_iff_getElem.mp hx
  have hjlen : j < df.length := by
    have hj2 := hj
    simp only [List.length_take] at hj2
    omega
  have hji : j ≤ i := by
    have hj2 := hj
    simp only [List.length_take] at hj2
    omega
  have hxj' : x = df[j] := by
    rw [← hxj]
    exact List.getElem_take ..
  by_cases hA : x.location = loc
  · have hdate : x.date ≤ t := by
      rcases Nat.lt_or_ge j i with hlt | hge
      · have hp := (List.pairwise_iff_getElem.mp hs) j i hjlen hi hlt
        have hl2 : (df[j]).location = (df[i]).location := by
          rw [← hxj', hloc]
          exact hA
        rw [hxj', ← ht]
        exact le_of_lt (hp hl2)
      · have hji2 : j = i := by omega
        subst hji2
        rw [hxj', ← ht]
    simp [hA, hdate]
  · simp [hA]

/-- C2: for every key metric and every row of a per-location date-sorted
frame, the filled value at that row equals the most recent non-missing
raw value of the same location at a date at most the row's date, and is
missing when no such value exists (`recentRaw` by construction never
reads a later date or another location). -/
theorem ffill_causal (df : List Row) (m : Metric) (hm : m ∈ keyMetrics)
    (hs : sortedWithin df) (i : ℕ) (r : Row) (hr : df[i]? = some r) :
    ((fillDF df)[i]?).map (getM m) = some (recentRaw m r.location r.date df) := by
  have hi : i < df.length := by
    by_contra hc
    rw [List.getElem?_eq_none (by omega)] at hr
    exact Option.noConfusion hr
  have hr' : df[i] = r := by
    rw [List.getElem?_eq_getElem hi] at hr
    exact Option.some_inj.mp hr
  have hlen : i < (fillDF df).length := by simpa using hi
  rw [List.getElem?_eq_getElem hlen, Option.map_some']
  refine congrArg some ?_
  have hco : i < (colOf m (fillDF df)).length := by simpa using hi
  have hcd : i < (colOf m df).length := by simpa using hi
  have hcf : i < (colFfill [] (colOf m df)).length := by simpa using hi
  have h1 : getM m ((fillDF df)[i]) = ((colOf m (fillDF df))[i]).2 := by
    rw [colOf_getElem m (fillDF df) i hlen hco]
  rw [h1, getElem_eq_of_list_eq _ _ (colOf_fillDF m df hm) i hco hcf,
    colFfill_getElem_eq (colOf m df) [] i (by simpa using hi) hcf]
  have hfst : ((colOf m df)[i]).1 = r.location := by
    rw [colOf_getElem m df i hi hcd, hr']
  rw [recentRaw,
    filter_upto_eq df hs i hi r.location r.date (by rw [hr']) (by rw [hr'])]
  simp only [hfst, lookupC, orElseQ_none]
  refine congrArg lastSome ?_
  rw [colOf, ← List.map_take, List.filter_map, List.map_map]
  rfl

theorem ffill_causal_witness :
    exDf[1]? = some rowA2 ∧ rowA2.total_cases = none ∧
    ((fillDF exDf)[1]?).map (getM .total_cases) =
      some (recentRaw Metric.total_cases rowA2.location rowA2.date exDf) ∧
    recentRaw Metric.total_cases rowA2.location rowA2.date exDf = some 100 :=
  ⟨by decide, by decide,
    ffill_causal exDf .total_cases (by decide) (by decide) 1 rowA2 (by decide),
    by decide⟩

/-! ## Rate deriver

Lines 269-291 of the insights section (the canonical computation per
the spec's design notes):

`np.where(den.fillna(0) > 0, (num.fillna(0) / den) * 100, 0)` followed
by `.fillna(0)`.  When the branch divides, the raw denominator is a
present value greater than zero, so the quotient is a defined rational
and the trailing `fillna(0)` is a no-op.  -/

/-- The safe-division policy of the source. -/
def safeRate (num den : Option ℚ) : ℚ :=
  if 0 < den.getD 0 then num.getD 0 / den.getD 0 * 100 else 0

/-- `_LATEST_DF['death_rate']` (lines 270-275). -/
def deathRate (r : Row) : ℚ := safeRate r.total_deaths r.total_cases

/-- `_LATEST_DF['vax_rate']` (lines 286-291). -/
def vaxRate (r : Row) : ℚ := safeRate r.people_vaccinated r.population

/-- C1 amended: for every snapshot row, a missing, zero or negative
denominator yields rate 0; the rate is a defined (finite) rational by
construction; and it is nonnegative WHEN the numerator is missing or
nonnegative.  (The unconditional "never negative" of the claim fails:
a negative numerator over a positive denominator is negative.) -/
theorem rates_safe (df : List Row) (r : Row) (hr : r ∈ snapshot df) :
    ((r.total_cases = none ∨ r.total_cases.getD 0 ≤ 0) → deathRate r = 0) ∧
    ((r.population = none ∨ r.population.getD 0 ≤ 0) → vaxRate r = 0) ∧
    (0 ≤ r.total_deaths.getD 0 → 0 ≤ deathRate r) ∧
    (0 ≤ r.people_vaccinated.getD 0 → 0 ≤ vaxRate r) := by
  refine ⟨?_, ?_, ?_, ?_⟩
  · intro h
    have hden : r.total_cases.getD 0 ≤ 0 := by
      rcases h with h | h
      · simp [h]
      · exact h
    rw [deathRate, safeRate, if_neg (not_lt.mpr hden)]
  · intro h
    have hden : r.population.getD 0 ≤ 0 := by
      rcases h with h | h
      · simp [h]
      · exact h
    rw [vaxRate, safeRate, if_neg (not_lt.mpr hden)]
  · intro h
    rw [deathRate, safeRate]
    by_cases hc : 0 < r.total_cases.getD 0
    · rw [if_pos hc]
      exact mul_nonneg (div_nonneg h (le_of_lt hc)) (by norm_num)
    · rw [if_neg hc]
  · intro h
    rw [vaxRate, safeRate]
    by_cases hc : 0 < r.population.getD 0
    · rw [if_pos hc]
      exact mul_nonneg (div_nonneg h (le_of_lt hc)) (by norm_num)
    · rw [if_neg hc]

/-- A snapshot row with a negative numerator: one reported case, a
death count correction of -1. -/
def badRow : Row := ⟨locA, 0, some 1, none, some (-1), none, none, none, none, none⟩

def badDf : List Row := [badRow]

/-- C1 counterexample: the claim's "the derived rate is never negative"
fails on the code: a negative numerator over a positive denominator
produces a negative rate (here -100). -/
theorem rates_safe_cex :
    badRow ∈ snapshot badDf ∧ deathRate badRow < 0 := by
  constructor
  · decide
  · norm_num [deathRate, safeRate, badRow]

theorem rates_safe_witness :
    ((rowT1.total_cases = none ∨ rowT1.total_cases.getD 0 ≤ 0) → deathRate rowT1 = 0) ∧
    ((rowT1.population = none ∨ rowT1.population.getD 0 ≤ 0) → vaxRate rowT1 = 0) ∧
    (0 ≤ rowT1.total_deaths.getD 0 → 0 ≤ deathRate rowT1) ∧
    (0 ≤ rowT1.people_vaccinated.getD 0 → 0 ≤ vaxRate rowT1) :=
  rates_safe tieDf rowT1 (by decide)

/-! ## Windowed average (lines 300-312)

`max_date = df_countries['date'].max()`;
`last_month_df = df_countries[df_countries['date'] >= max_date - pd.Timedelta(days=30)]`;
`avg_new_cases = last_month_df.groupby('location')['new_cases'].mean().dropna()`.
The boundary is computed once from the global maximum date; `mean()`
skips missing values and is itself missing for a group with none, and
`dropna()` removes such groups. -/

/-- The maximum date of the frame, when any. -/
def maxDate? : List Row → Option ℤ
  | [] => none
  | r :: rest =>
    match maxDate? rest with
    | none => some r.date
    | some M => some (max M r.date)

/-- `last_month_df`: the rows within 30 days of the global maximum date. -/
def windowRows (df : List Row) : List Row :=
  match maxDate? df with
  | none => []
  | some M => df.filter (fun r => decide (M - 30 ≤ r.date))

/-- pandas `mean()`: the mean of the non-missing values, missing when
there is none. -/
def meanOpt (vs : List (Option ℚ)) : Option ℚ :=
  if (vs.filterMap id).length = 0 then none
  else some ((vs.filterMap id).sum / ((vs.filterMap id).length : ℚ))

/-- `avg_new_cases`: location, mean of `new_cases` over the window,
with all-missing groups dropped. -/
def avgNewCases (df : List Row) : List (String × ℚ) :=
  (groupKeys (windowRows df)).filterMap
    (fun l => (meanOpt (((windowRows df).filter
        (fun r => decide (r.location = l))).map (fun r => r.new_cases))).map (fun v => (l, v)))

theorem maxDate?_le (df : List Row) (M : ℤ) (h : maxDate? df = some M) :
    ∀ r ∈ df, r.date ≤ M := by
  induction df generalizing M with
  | nil => exact absurd h (by simp [maxDate?])
  | cons x rest ih =>
    rcases hm : maxDate? rest with _ | N
    · simp only [maxDate?, hm] at h
      obtain rfl : x.date = M := Option.some_inj.mp h
      intro r hrm
      rcases List.mem_cons.mp hrm with he | hmem
      · exact le_of_eq (congrArg Row.date he)
      · cases rest with
        | nil => exact absurd hmem (by simp)
        | cons z zs => exact absurd hm (by simp [maxDate?]; cases maxDate? zs <;> simp)
    · simp only [maxDate?, hm] at h
      obtain rfl : max N x.date = M := Option.some_inj.mp h
      intro r hrm
      rcases List.mem_cons.mp hrm with he | hmem
      · exact le_max_of_le_right (le_of_eq (congrArg Row.date he))
      · exact le_max_of_le_left (ih N hm r hmem)

/-- Keyed lookup into a `filterMap` that tags each value with its key. -/
theorem lookup_filterMap_keys (g : String → Option ℚ) (loc : String) :
    ∀ ks : List String, ks.Nodup →
      (ks.filterMap (fun l => (g l).map (fun v => (l, v)))).lookup loc =
        if loc ∈ ks then g loc else none := by
  intro ks
  induction ks with
  | nil => intro _; simp
  | cons k ks ih =>
    intro hk
    have hknd : ks.Nodup := (List.nodup_cons.mp hk).2
    have hkmem : k ∉ ks := (List.nodup_cons.mp hk).1
    rcases hgk : g k with _ | v
    · simp only [List.filterMap_cons, hgk, Option.map_none']
      rw [ih hknd]
      by_cases hlk : loc = k
      · subst hlk
        rw [if_neg hkmem, if_pos (List.mem_cons_self loc ks), hgk]
      · by_cases hmem : loc ∈ ks
        · rw [if_pos hmem, if_pos (List.mem_cons_of_mem k hmem)]
        · rw [if_neg hmem, if_neg (by
            intro hc
            rcases List.mem_cons.mp hc with he | hm2
            · exact hlk he
            · exact hmem hm2)]
    · simp only [List.filterMap_cons, hgk, Option.map_some']
      by_cases hlk : loc = k
      · subst hlk
        rw [if_pos (List.mem_cons_self loc ks)]
        simp [List.lookup, hgk]
      · have hstep : List.lookup loc
            ((k, v) :: ks.filterMap (fun l => (g l).map (fun w => (l, w)))) =
            List.lookup loc (ks.filterMap (fun l => (g l).map (fun w => (l, w)))) := by
          rw [List.lookup, beq_eq_false_iff_ne.mpr hlk]
        rw [hstep, ih hknd]
        by_cases hmem : loc ∈ ks
        · rw [if_pos hmem, if_pos (List.mem_cons_of_mem k hmem)]
        · rw [if_neg hmem, if_neg (by
            intro hc
            rcases List.mem_cons.mp hc with he | hm2
            · exact hlk he
            · exact hmem hm2)]

/-- C4: with `M` the single maximum date over all filtered rows, a
location's windowed value is the mean of its non-missing `new_cases`
over its rows dated within `[M - 30, M]`, and a location with no
qualifying row is absent from the mapping. -/
theorem window_avg_correct (df : List Row) (M : ℤ) (hM : maxDate? df = some M) (loc : String) :
    ((df.filter (fun r => decide (r.location = loc ∧ M - 30 ≤ r.date ∧ r.date ≤ M))).filterMap
        (fun r => r.new_cases) ≠ [] →
      (avgNewCases df).lookup loc =
        some (((df.filter (fun r => decide (r.location = loc ∧ M - 30 ≤ r.date ∧ r.date ≤ M))).filterMap
            (fun r => r.new_cases)).sum /
          (((df.filter (fun r => decide (r.location = loc ∧ M - 30 ≤ r.date ∧ r.date ≤ M))).filterMap
            (fun r => r.new_cases)).length : ℚ))) ∧
    (df.filter (fun r => decide (r.location = loc ∧ M - 30 ≤ r.date ∧ r.date ≤ M)) = [] →
      (avgNewCases df).lookup loc = none) := by
  have hW : windowRows df = df.filter (fun r => decide (M - 30 ≤ r.date)) := by
    simp only [windowRows, hM]
  have hQW : df.filter (fun r => decide (r.location = loc ∧ M - 30 ≤ r.date ∧ r.date ≤ M)) =
      (windowRows df).filter (fun r => decide (r.location = loc)) := by
    rw [hW, List.filter_filter]
    apply List.filter_congr
    intro x hx
    have hxM : x.date ≤ M := maxDate?_le df M hM x hx
    by_cases h1 : x.location = loc <;> by_cases h2 : M - 30 ≤ x.date <;>
      simp [h1, h2, hxM]
  have hlook : (avgNewCases df).lookup loc =
      if loc ∈ groupKeys (windowRows df)
      then meanOpt (((windowRows df).filter
          (fun r => decide (r.location = loc))).map (fun r => r.new_cases))
      else none :=
    lookup_filterMap_keys _ loc (groupKeys (windowRows df)) (groupKeys_nodup _)
  have hVmap : (((windowRows df).filter (fun r => decide (r.location = loc))).map
        (fun r => r.new_cases)).filterMap id =
      ((windowRows df).filter (fun r => decide (r.location = loc))).filterMap
        (fun r => r.new_cases) := by
    rw [List.filterMap_map]
    rfl
  constructor
  · intro hne
    rw [hQW] at hne
    have hmem : loc ∈ groupKeys (windowRows df) := by
      rw [mem_groupKeys]
      obtain ⟨v, hv⟩ := List.exists_mem_of_ne_nil _ hne
      obtain ⟨r, hrA, hrv⟩ := List.mem_filterMap.mp hv
      have hrA2 := List.mem_filter.mp hrA
      exact List.mem_map.mpr ⟨r, hrA2.1, by simpa using hrA2.2⟩
    rw [hQW, hlook, if_pos hmem, meanOpt, hVmap,
      if_neg (fun hc => hne (List.length_eq_zero.mp hc))]
  · intro hQnil
    rw [hQW] at hQnil
    have hnm : loc ∉ groupKeys (windowRows df) := by
      rw [mem_groupKeys]
      intro hc
      obtain ⟨r, hrW, hrl⟩ := List.mem_map.mp hc
      have hrA : r ∈ (windowRows df).filter (fun x => decide (x.location = loc)) :=
        List.mem_filter.mpr ⟨hrW, by simpa using hrl⟩
      rw [hQnil] at hrA
      exact absurd hrA (by simp)
    rw [hlook, if_neg hnm]

/-- Window witness rows: location A, dates 0 and 1, `new_cases` 10 and 20. -/
def rowW1 : Row := ⟨locA, 0, none, some 10, none, none, none, none, none, none⟩

def rowW2 : Row := ⟨locA, 1, none, some 20, none, none, none, none, none, none⟩

def winDf : List Row := [rowW1, rowW2]

theorem window_avg_correct_witness :
    (winDf.filter (fun r => decide (r.location = locA ∧ 1 - 30 ≤ r.date ∧ r.date ≤ 1))).filterMap
        (fun r => r.new_cases) = [10, 20] ∧
    (avgNewCases winDf).lookup locA =
      some (((winDf.filter (fun r => decide (r.location = locA ∧ 1 - 30 ≤ r.date ∧ r.date ≤ 1))).filterMap
          (fun r => r.new_cases)).sum /
        (((winDf.filter (fun r => decide (r.location = locA ∧ 1 - 30 ≤ r.date ∧ r.date ≤ 1))).filterMap
          (fun r => r.new_cases)).length : ℚ)) ∧
    (([10, 20] : List ℚ).sum / (([10, 20] : List ℚ).length : ℚ)) = 15 :=
  ⟨by decide,
    (window_avg_correct winDf 1 (by decide) locA).1 (by decide),
    by norm_num⟩

/-! ## Insight ranker (lines 259-325)

Each of the five prints is modelled as a query result: `ok location
value`, or `skipped` (the source prints a "Could not determine ..."
diagnostic instead).  `Series.idxmax` skips missing entries and returns
the first index attaining the maximum; it is guarded by
`notna().any()`, i.e. the query is skipped exactly when `idxmax` would
have no eligible value.  The whole section runs only when `_LATEST_DF`
is nonempty. -/

inductive QueryResult where
  | ok (loc : String) (value : ℚ)
  | skipped
deriving DecidableEq

def isSkip : QueryResult → Bool
  | .skipped => true
  | .ok _ _ => false

/-- `Series.idxmax` over a row field: the first row attaining the
maximum among rows where the field is present; `none` iff no row has a
value. -/
def argmaxFirst? (f : Row → Option ℚ) : List Row → Option (Row × ℚ)
  | [] => none
  | r :: rest =>
    match f r, argmaxFirst? f rest with
    | none, res => res
    | some x, none => some (r, x)
    | some x, some (s, y) => if x < y then some (s, y) else some (r, x)

/-- `Series.idxmax` over the location-keyed means: first key attaining
the maximum value. -/
def argmaxPair? : List (String × ℚ) → Option (String × ℚ)
  | [] => none
  | p :: rest =>
    match argmaxPair? rest with
    | none => some p
    | some q => if p.2 < q.2 then some q else some p

/-- Query 1 (lines 262-266): highest `total_cases` over the snapshot. -/
def q1 (snap : List Row) : QueryResult :=
  match argmaxFirst? (fun r => r.total_cases) snap with
  | some (r, v) => .ok r.location v
  | none => .skipped

/-- Query 2 (lines 269-282): highest death rate, on the 0-substituted
`death_rate` column (never missing). -/
def q2 (snap : List Row) : QueryResult :=
  match argmaxFirst? (fun r => some (deathRate r)) snap with
  | some (r, v) => .ok r.location v
  | none => .skipped

/-- Query 3 (lines 285-298): highest vaccination rate, 0-substituted. -/
def q3 (snap : List Row) : QueryResult :=
  match argmaxFirst? (fun r => some (vaxRate r)) snap with
  | some (r, v) => .ok r.location v
  | none => .skipped

/-- Query 4 (lines 300-318): highest windowed average of `new_cases`,
over the filled frame. -/
def q4 (df : List Row) : QueryResult :=
  match argmaxPair? (avgNewCases df) with
  | some (l, v) => .ok l v
  | none => .skipped

/-- Query 5 (lines 321-325): highest `total_deaths_per_million` over
the snapshot (raw field). -/
def q5 (snap : List Row) : QueryResult :=
  match argmaxFirst? (fun r => r.total_deaths_per_million) snap with
  | some (r, v) => .ok r.location v
  | none => .skipped

/-- The Key Insights section: nothing at all when the snapshot is
empty (line 326), else the five queries in order. -/
def insights (df : List Row) : List QueryResult :=
  if snapshot df = [] then []
  else [q1 (snapshot df), q2 (snapshot df), q3 (snapshot df), q4 df, q5 (snapshot df)]

theorem argmaxFirst?_eq_none_iff (f : Row → Option ℚ) (l : List Row) :
    argmaxFirst? f l = none ↔ ∀ r ∈ l, f r = none := by
  induction l with
  | nil => simp [argmaxFirst?]
  | cons x rest ih =>
    rcases hf : f x with _ | a
    · rcases ha : argmaxFirst? f rest with _ | p
      · simp only [argmaxFirst?, hf, ha]
        constructor
        · intro _ r hrm
          rcases List.mem_cons.mp hrm with he | hmem
          · rw [he]
            exact hf
          · exact ih.mp ha r hmem
        · intro _
          trivial
      · simp only [argmaxFirst?, hf, ha]
        constructor
        · intro hc
          exact absurd hc (by simp)
        · intro hall
          have : argmaxFirst? f rest = none := ih.mpr (fun r hr => hall r (List.mem_cons_of_mem x hr))
          rw [this] at ha
          exact Option.noConfusion ha
    · rcases ha : argmaxFirst? f rest with _ | p
      · simp [argmaxFirst?, hf, ha]
      · obtain ⟨s, y⟩ := p
        simp only [argmaxFirst?, hf, ha]
        by_cases hxy : a < y <;> simp [hxy, hf]

theorem argmaxFirst?_spec (f : Row → Option ℚ) (l : List Row) (r : Row) (v : ℚ)
    (h : argmaxFirst? f l = some (r, v)) :
    f r = some v ∧ (∀ x ∈ l, ∀ w, f x = some w → w ≤ v) ∧
    ∃ i, ∃ hi : i < l.length, l[i] = r ∧
      ∀ j, ∀ hj : j < l.length, j < i → ∀ w, f (l[j]) = some w → w < v := by
  induction l generalizing r v with
  | nil => exact absurd h (by simp [argmaxFirst?])
  | cons x rest ih =>
    rcases hf : f x with _ | a
    · rcases ha : argmaxFirst? f rest with _ | p
      · simp [argmaxFirst?, hf, ha] at h
      · simp only [argmaxFirst?, hf, ha] at h
        obtain rfl : p = (r, v) := Option.some_inj.mp h
        obtain ⟨hfr, hmax, i, hi, heq, hfirst⟩ := ih r v ha
        refine ⟨hfr, ?_, i+1, by simpa using hi, by simpa using heq, ?_⟩
        · intro z hz w hw
          rcases List.mem_cons.mp hz with he | hmem
          · rw [he, hf] at hw
            exact Option.noConfusion hw
          · exact hmax z hmem w hw
        · intro j hj hji w hw
          cases j with
          | zero =>
            rw [List.getElem_cons_zero, hf] at hw
            exact Option.noConfusion hw
          | succ j =>
            have hj' : j < rest.length := by simpa using hj
            exact hfirst j hj' (by omega) w (by simpa using hw)
    · rcases ha : argmaxFirst? f rest with _ | p
      · simp only [argmaxFirst?, hf, ha] at h
        simp only [Option.some_inj, Prod.mk.injEq] at h
        obtain ⟨rfl, rfl⟩ := h
        refine ⟨hf, ?_, 0, by simp, by simp, ?_⟩
        · intro z hz w hw
          rcases List.mem_cons.mp hz with he | hmem
          · rw [he, hf] at hw
            exact le_of_eq (Option.some_inj.mp hw).symm
          · have hnone := (argmaxFirst?_eq_none_iff f rest).mp ha z hmem
            rw [hnone] at hw
            exact Option.noConfusion hw
        · intro j hj hji w hw
          exact absurd hji (by omega)
      · obtain ⟨s, y⟩ := p
        simp only [argmaxFirst?, hf, ha] at h
        by_cases hxy : a < y
        · rw [if_pos hxy] at h
          simp only [Option.some_inj, Prod.mk.injEq] at h
          obtain ⟨rfl, rfl⟩ := h
          obtain ⟨hfr, hmax, i, hi, heq, hfirst⟩ := ih s y ha
          refine ⟨hfr, ?_, i+1, by simpa using hi, by simpa using heq, ?_⟩
          · intro z hz w hw
            rcases List.mem_cons.mp hz with he | hmem
            · rw [he, hf] at hw
              exact (Option.some_inj.mp hw) ▸ le_of_lt hxy
            · exact hmax z hmem w hw
          · intro j hj hji w hw
            cases j with
            | zero =>
              rw [List.getElem_cons_zero, hf] at hw
              exact (Option.some_inj.mp hw) ▸ hxy
            | succ j =>
              have hj' : j < rest.length := by simpa using hj
              exact hfirst j hj' (by omega) w (by simpa using hw)
        · rw [if_neg hxy] at h
          simp only [Option.some_inj, Prod.mk.injEq] at h
          obtain ⟨rfl, rfl⟩ := h
          obtain ⟨hfs, hmax, i2, hi2, heq2, hfirst2⟩ := ih s y ha
          refine ⟨hf, ?_, 0, by simp, by simp,
            fun j hj hji w hw => absurd hji (by omega)⟩
          intro z hz w hw
          rcases List.mem_cons.mp hz with he | hmem
          · rw [he, hf] at hw
            exact le_of_eq (Option.some_inj.mp hw).symm
          · exact le_trans (hmax z hmem w hw) (le_of_not_lt hxy)

theorem argmaxPair?_eq_none_iff (l : List (String × ℚ)) :
    argmaxPair? l = none ↔ l = [] := by
  cases l with
  | nil => simp [argmaxPair?]
  | cons p rest =>
    simp only [argmaxPair?]
    rcases argmaxPair? rest with _ | q
    · simp
    · by_cases hpq : p.2 < q.2 <;> simp [hpq]

theorem argmaxPair?_spec (l : List (String × ℚ)) (k : String) (v : ℚ)
    (h : argmaxPair? l = some (k, v)) :
    (k, v) ∈ l ∧ (∀ p ∈ l, p.2 ≤ v) ∧
    ∃ i, ∃ hi : i < l.length, l[i] = (k, v) ∧
      ∀ j, ∀ hj : j < l.length, j < i → (l[j]).2 < v := by
  induction l generalizing k v with
  | nil => exact absurd h (by simp [argmaxPair?])
  | cons p rest ih =>
    rcases ha : argmaxPair? rest with _ | q
    · simp only [argmaxPair?, ha] at h
      obtain rfl : p = (k, v) := Option.some_inj.mp h
      refine ⟨List.mem_cons_self _ rest, ?_, 0, by simp, by simp,
        fun j hj hji => absurd hji (by omega)⟩
      intro z hz
      rcases List.mem_cons.mp hz with he | hmem
      · exact le_of_eq (congrArg Prod.snd he)
      · rw [(argmaxPair?_eq_none_iff rest).mp ha] at hmem
        exact absurd hmem (by simp)
    · simp only [argmaxPair?, ha] at h
      by_cases hpq : p.2 < q.2
      · rw [if_pos hpq] at h
        obtain rfl : q = (k, v) := Option.some_inj.mp h
        obtain ⟨hmem, hmax, i, hi, heq, hfirst⟩ := ih k v ha
        refine ⟨List.mem_cons_of_mem p hmem, ?_, i+1, by simpa using hi,
          by simpa using heq, ?_⟩
        · intro z hz
          rcases List.mem_cons.mp hz with he | hm2
          · exact le_of_lt (he ▸ hpq)
          · exact hmax z hm2
        · intro j hj hji
          cases j with
          | zero => simpa using hpq
          | succ j =>
            have hj' : j < rest.length := by simpa using hj
            simpa using hfirst j hj' (by omega)
      · rw [if_neg hpq] at h
        obtain rfl : p = (k, v) := Option.some_inj.mp h
        obtain ⟨hmem, hmax, i2, hi2, heq2, hfirst2⟩ := ih q.1 q.2 (by
          rw [ha])
        refine ⟨List.mem_cons_self _ rest, ?_, 0, by simp, by simp,
          fun j hj hji => absurd hji (by omega)⟩
        intro z hz
        rcases List.mem_cons.mp hz with he | hm2
        · exact le_of_eq (congrArg Prod.snd he)
        · exact le_trans (hmax z hm2) (le_of_not_lt hpq)

/-! ## Claim C9: insight determinism and tie-breaks -/

/-- C9: the insight computation is a pure function, so two runs on the
same input give the same ordered list; and every argmax winner is the
first entry attaining the maximum in iteration order: over snapshot
rows for the field queries, over the windowed mapping for query 4, so
an exact tie is broken toward the earlier entry. -/
theorem insights_deterministic (df : List Row) (f : Row → Option ℚ) (r : Row) (v : ℚ)
    (h : argmaxFirst? f (snapshot df) = some (r, v)) :
    insights df = insights df ∧
    (f r = some v ∧ (∀ x ∈ snapshot df, ∀ w, f x = some w → w ≤ v) ∧
      ∃ i, ∃ hi : i < (snapshot df).length, (snapshot df)[i] = r ∧
        ∀ j, ∀ hj : j < (snapshot df).length, j < i →
          ∀ w, f ((snapshot df)[j]) = some w → w < v) ∧
    (∀ k u, argmaxPair? (avgNewCases df) = some (k, u) →
      ∃ i, ∃ hi : i < (avgNewCases df).length, (avgNewCases df)[i] = (k, u) ∧
        ∀ j, ∀ hj : j < (avgNewCases df).length, j < i → ((avgNewCases df)[j]).2 < u) :=
  ⟨rfl, argmaxFirst?_spec f (snapshot df) r v h,
    fun k u hk => (argmaxPair?_spec (avgNewCases df) k u hk).2.2⟩

/-- Tied rows in two locations: equal `total_cases`. -/
def rowC1 : Row := ⟨locA, 3, some 10, none, none, none, none, none, none, none⟩

def rowC2 : Row := ⟨locB, 3, some 10, none, none, none, none, none, none, none⟩

def tieLocDf : List Row := [rowC1, rowC2]

theorem insights_deterministic_witness :
    rowC1.total_cases = some 10 ∧
    ∀ x ∈ snapshot tieLocDf, ∀ w, x.total_cases = some w → w ≤ 10 :=
  (fun h => ⟨h.2.1.1, h.2.1.2.1⟩)
    (insights_deterministic tieLocDf (fun x => x.total_cases) rowC1 10 (by decide))

/-! ## Claim C10: missing snapshot values and the raw-field argmax -/

/-- C10: for the two raw-field queries (`total_cases`,
`total_deaths_per_million`), a snapshot row whose field is missing is
never the winner, and the query produces a result whenever at least one
row has a value. -/
theorem insights_skip_missing (df : List Row) (r : Row) (v : ℚ) :
    (argmaxFirst? (fun x => x.total_cases) (snapshot df) = some (r, v) →
      r.total_cases = some v ∧ ∀ x ∈ snapshot df, x.total_cases = none → x ≠ r) ∧
    ((∃ x ∈ snapshot df, (x.total_cases).isSome) →
      ∃ s w, q1 (snapshot df) = QueryResult.ok s w) ∧
    (argmaxFirst? (fun x => x.total_deaths_per_million) (snapshot df) = some (r, v) →
      r.total_deaths_per_million = some v ∧
        ∀ x ∈ snapshot df, x.total_deaths_per_million = none → x ≠ r) ∧
    ((∃ x ∈ snapshot df, (x.total_deaths_per_million).isSome) →
      ∃ s w, q5 (snapshot df) = QueryResult.ok s w) := by
  refine ⟨?_, ?_, ?_, ?_⟩
  · intro h
    obtain ⟨hfr, _, _⟩ := argmaxFirst?_spec _ _ r v h
    refine ⟨hfr, ?_⟩
    intro x hx hnone he
    rw [he, hfr] at hnone
    exact Option.noConfusion hnone
  · intro hex
    rcases hq : argmaxFirst? (fun x => x.total_cases) (snapshot df) with _ | p
    · obtain ⟨x, hx, hsome⟩ := hex
      rw [(argmaxFirst?_eq_none_iff _ _).mp hq x hx] at hsome
      exact absurd hsome (by simp)
    · obtain ⟨s, w⟩ := p
      exact ⟨s.location, w, by simp only [q1, hq]⟩
  · intro h
    obtain ⟨hfr, _, _⟩ := argmaxFirst?_spec _ _ r v h
    refine ⟨hfr, ?_⟩
    intro x hx hnone he
    rw [he, hfr] at hnone
    exact Option.noConfusion hnone
  · intro hex
    rcases hq : argmaxFirst? (fun x => x.total_deaths_per_million) (snapshot df) with _ | p
    · obtain ⟨x, hx, hsome⟩ := hex
      rw [(argmaxFirst?_eq_none_iff _ _).mp hq x hx] at hsome
      exact absurd hsome (by simp)
    · obtain ⟨s, w⟩ := p
      exact ⟨s.location, w, by simp only [q5, hq]⟩

/-- A snapshot row with every metric missing. -/
def missRow : Row := ⟨locA, 0, none, none, none, none, none, none, none, none⟩

def missDf : List Row := [missRow]

/-- A second-location row carrying values. -/
def rowN2 : Row := ⟨locB, 0, some 7, none, none, none, none, none, none, some 3⟩

def mixDf : List Row := [missRow, rowN2]

theorem insights_skip_missing_witness :
    (rowN2.total_cases = some 7 ∧
      ∀ x ∈ snapshot mixDf, x.total_cases = none → x ≠ rowN2) ∧
    (∃ s w, q1 (snapshot mixDf) = QueryResult.ok s w) :=
  ⟨(insights_skip_missing mixDf rowN2 7).1 (by decide),
    (insights_skip_missing mixDf rowN2 7).2.1 ⟨rowN2, by decide, by decide⟩⟩

/-! ## Claim C7: per-query soft failure -/

/-- C7 amended: the five queries are computed independently and listed
in order whenever the snapshot is nonempty.  Queries 1, 4 and 5 are
skipped exactly when their data is entirely missing (all `total_cases`
missing; empty windowed mapping; all `total_deaths_per_million`
missing).  Queries 2 and 3 are NEVER skipped on a nonempty snapshot:
their rate columns substitute 0 for undefined ratios, so even entirely
missing inputs produce a 0-valued result instead of a skip (the
claim's "skipped exactly when its required field is ... entirely
missing" fails for them). -/
theorem insights_characterized (df : List Row) (h : ¬ snapshot df = []) :
    insights df =
      [q1 (snapshot df), q2 (snapshot df), q3 (snapshot df), q4 df, q5 (snapshot df)] ∧
    (isSkip (q1 (snapshot df)) = true ↔ ∀ x ∈ snapshot df, x.total_cases = none) ∧
    isSkip (q2 (snapshot df)) = false ∧
    isSkip (q3 (snapshot df)) = false ∧
    (isSkip (q4 df) = true ↔ avgNewCases df = []) ∧
    (isSkip (q5 (snapshot df)) = true ↔
      ∀ x ∈ snapshot df, x.total_deaths_per_million = none) := by
  refine ⟨by rw [insights, if_neg h], ?_, ?_, ?_, ?_, ?_⟩
  · rw [← argmaxFirst?_eq_none_iff]
    constructor
    · intro hskip
      rcases hq : argmaxFirst? (fun x => x.total_cases) (snapshot df) with _ | p
      · rfl
      · obtain ⟨s, w⟩ := p
        simp only [q1, hq, isSkip] at hskip
        exact Bool.noConfusion hskip
    · intro hq
      simp [q1, hq, isSkip]
  · rcases hq : argmaxFirst? (fun r => some (deathRate r)) (snapshot df) with _ | p
    · obtain ⟨x, hx⟩ := List.exists_mem_of_ne_nil _ h
      have hc := (argmaxFirst?_eq_none_iff _ _).mp hq x hx
      exact absurd hc (by simp)
    · obtain ⟨s, w⟩ := p
      simp [q2, hq, isSkip]
  · rcases hq : argmaxFirst? (fun r => some (vaxRate r)) (snapshot df) with _ | p
    · obtain ⟨x, hx⟩ := List.exists_mem_of_ne_nil _ h
      have hc := (argmaxFirst?_eq_none_iff _ _).mp hq x hx
      exact absurd hc (by simp)
    · obtain ⟨s, w⟩ := p
      simp [q3, hq, isSkip]
  · rcases hq : argmaxPair? (avgNewCases df) with _ | p
    · have he := (argmaxPair?_eq_none_iff _).mp hq
      have h4 : q4 df = QueryResult.skipped := by
        simp only [q4, hq]
      simp [h4, isSkip, he]
    · obtain ⟨k, u⟩ := p
      have hne : ¬ avgNewCases df = [] := by
        intro hc
        rw [(argmaxPair?_eq_none_iff _).mpr hc] at hq
        exact Option.noConfusion hq
      have h4 : q4 df = QueryResult.ok k u := by
        simp only [q4, hq]
      simp [h4, isSkip, hne]
  · rw [← argmaxFirst?_eq_none_iff]
    constructor
    · intro hskip
      rcases hq : argmaxFirst? (fun x => x.total_deaths_per_million) (snapshot df) with _ | p
      · rfl
      · obtain ⟨s, w⟩ := p
        simp only [q5, hq, isSkip] at hskip
        exact Bool.noConfusion hskip
    · intro hq
      simp [q5, hq, isSkip]

/-- C7 counterexample: on a snapshot whose `total_deaths` (and
`total_cases`) are entirely missing, query 2 still produces a result
(death rate 0 at location A) instead of being skipped, refuting
"skipped exactly when its required field is absent or entirely
missing". -/
theorem insights_characterized_cex :
    (∀ x ∈ snapshot missDf, x.total_deaths = none) ∧
    (insights missDf)[1]? = some (QueryResult.ok locA 0) ∧
    isSkip (q2 (snapshot missDf)) = false := by
  decide

theorem insights_characterized_witness :
    insights missDf =
      [q1 (snapshot missDf), q2 (snapshot missDf), q3 (snapshot missDf),
        q4 missDf, q5 (snapshot missDf)] ∧
    isSkip (q2 (snapshot missDf)) = false :=
  (fun h => ⟨h.1, h.2.2.1⟩) (insights_characterized missDf (by decide))

/-! ## Claim C5: empty-input resilience -/

/-- C5: when no input row belongs to a configured location (in
particular for an empty input), every stage yields an empty result:
empty filtered frame, empty filled series, empty snapshot, empty
windowed mapping and zero insights.  All stages are total functions,
so no exception can propagate. -/
theorem empty_input_resilient (raw : List Row)
    (h : ∀ r ∈ raw, ¬ r.location ∈ countriesOfInterest) :
    filterCountries raw = [] ∧
    fillDF (filterCountries raw) = [] ∧
    snapshot (fillDF (filterCountries raw)) = [] ∧
    avgNewCases (fillDF (filterCountries raw)) = [] ∧
    insights (fillDF (filterCountries raw)) = [] := by
  have hf : filterCountries raw = [] := by
    rw [filterCountries, List.filter_eq_nil_iff]
    intro a ha
    simpa using h a ha
  rw [hf]
  exact ⟨rfl, by decide, by decide, by decide, by decide⟩

/-- An input row in a location outside the configured set. -/
def locFr : String := "France"

def rowF : Row := ⟨locFr, 0, some 1, none, none, none, none, none, none, none⟩

def foreignDf : List Row := [rowF]

theorem empty_input_resilient_witness :
    filterCountries foreignDf = [] ∧
    fillDF (filterCountries foreignDf) = [] ∧
    snapshot (fillDF (filterCountries foreignDf)) = [] ∧
    avgNewCases (fillDF (filterCountries foreignDf)) = [] ∧
    insights (fillDF (filterCountries foreignDf)) = [] :=
  empty_input_resilient foreignDf (by decide)
